import Mathlib

/-!
Shallow embedding of `src/main.ts` of the obsidian-brain plugin: the line
classifier, the `Task` model, ancestor resolution (`getTask`), the archive
locator/merger (`archiveTask`), and the edit-batch application against a
line-addressable buffer.

The document is a list of lines (`List String`).  The host editor (Obsidian)
is an external collaborator; its buffer contract is modelled from the spec
(section 6): positions are `{line, ch}` pairs, a transaction is a batch of
range-replace edits, all interpreted against the pre-transaction document.
Out-of-range reads yield the empty line and out-of-range positions resolve
to the document end, as the spec's no-error policy and its section 8 worked
example require.
-/

namespace ObsidianBrain

/-- Character class of JavaScript whitespace as relevant to these documents
(the source uses regex whitespace and `String.prototype.trim`). -/
def jsWs (c : Char) : Bool :=
  c == ' ' || c == '\t' || c == '\n' || c == '\r' || c == '\x0b' || c == '\x0c'

/-- Number of leading tab characters, mirroring the regex match of a leading
tab run in `Markdown.indentLevel`. -/
def leadingTabs : List Char → Nat
  | [] => 0
  | c :: rest => if c = '\t' then leadingTabs rest + 1 else 0

/-- Indent level of a single line: count of leading tabs. -/
def lineIndent (s : String) : Nat := leadingTabs s.data

/-- Substring containment, mirroring JavaScript `String.prototype.contains`
(alias of `includes`) used by the line classifier. -/
def containsSub (l pat : List Char) : Bool :=
  pat.isPrefixOf l ||
    match l with
    | [] => false
    | _ :: rest => containsSub rest pat

/-- Strip surrounding whitespace from both ends (JavaScript `trim`). -/
def trimChars (l : List Char) : List Char :=
  ((l.dropWhile jsWs).reverse.dropWhile jsWs).reverse

/-- `stripTask` from the source: trim, then remove the first matching prefix
among the patterns `"- [ ] "`, `"- [x] "`, `"- "`. -/
def stripTask (task : String) : String :=
  let t := trimChars task.data
  if "- [ ] ".data.isPrefixOf t then ⟨t.drop 6⟩
  else if "- [x] ".data.isPrefixOf t then ⟨t.drop 6⟩
  else if "- ".data.isPrefixOf t then ⟨t.drop 2⟩
  else ⟨t⟩

/-- `isSameTask` from the source: compare two lines after `stripTask`. -/
def isSameTask (task1 task2 : String) : Bool :=
  stripTask task1 == stripTask task2

/-- The replacement performed by `line.replace(/^(\s*)- \[ \]/, "$1" + repl)`:
if the text after the leading whitespace run starts with `"- [ ]"`, replace
that marker by `repl`, keeping the leading whitespace; otherwise return the
line unchanged. -/
def bulletTaskRewrite (repl : String) (s : String) : String :=
  let ws := s.data.takeWhile jsWs
  let rest := s.data.dropWhile jsWs
  if "- [ ]".data.isPrefixOf rest then ⟨ws ++ repl.data ++ rest.drop 5⟩ else s

/-- The `Task` model: ancestor lines (outer to inner), the task line itself,
and the (always empty) children list. -/
structure Task where
  parents : List String
  task : String
  children : List String
deriving Repr, DecidableEq

/-- The `Task` constructor: parent task bullets are converted to regular
bullet points via the `bulletTaskRegex` replacement. -/
def Task.make (parents : List String) (task : String) (children : List String) : Task :=
  ⟨parents.map (bulletTaskRewrite "-"), task, children⟩

/-- `markAsCompleted`: rewrite the task's unchecked marker to `- [x]`. -/
def Task.markAsCompleted (t : Task) : Task :=
  { t with task := bulletTaskRewrite "- [x]" t.task }

/-- `markAsInProgress`: rewrite the task's unchecked marker to `- [/]`. -/
def Task.markAsInProgress (t : Task) : Task :=
  { t with task := bulletTaskRewrite "- [/]" t.task }

/-- `Task.toString(includeParentIndex)`: the parents from the given index on,
each on its own line, followed by the task line. -/
def Task.render (t : Task) (includeParentIndex : Nat) : String :=
  let includedParents := t.parents.drop includeParentIndex
  if includedParents.length > 0 then
    String.intercalate "\n" includedParents ++ "\n" ++ t.task
  else t.task

/-! ## The line-addressable buffer interface (spec section 6) -/

/-- A cursor / edit position: zero-based line and column. -/
structure EditorPosition where
  line : Nat
  ch : Nat
deriving Repr, DecidableEq

/-- One edit of a transaction: replace the range from `fromPos` to `toPos`
(insert at `fromPos` when `toPos` is absent) by `text`. -/
structure EditorChange where
  text : String
  fromPos : EditorPosition
  toPos : Option EditorPosition
deriving Repr, DecidableEq

/-- `editor.getLine`: out-of-range reads yield the empty line (the spec's
no-error contract for the host buffer). -/
def getLine (doc : List String) (n : Nat) : String := doc.getD n ""

/-- `Markdown.isBullet`: the line is in bounds and contains `"- "`. -/
def isBullet (doc : List String) (n : Nat) : Bool :=
  n + 1 ≤ doc.length && containsSub (getLine doc n).data "- ".data

/-- `Markdown.isBulletTask`: the line is in bounds and contains an unchecked
or checked task marker. -/
def isBulletTask (doc : List String) (n : Nat) : Bool :=
  n + 1 ≤ doc.length &&
    (containsSub (getLine doc n).data "- [ ] ".data ||
     containsSub (getLine doc n).data "- [x] ".data)

/-- `Markdown.isArchiveTask`: bullet or bullet task. -/
def isArchiveTask (doc : List String) (n : Nat) : Bool :=
  isBullet doc n || isBulletTask doc n

/-- `Markdown.indentLevel` of a document line. -/
def indentLevel (doc : List String) (n : Nat) : Nat :=
  lineIndent (getLine doc n)

/-- Start-of-line position. -/
def lineStartPosition (n : Nat) : EditorPosition := ⟨n, 0⟩

/-- End-of-line position. -/
def lineEndPosition (doc : List String) (n : Nat) : EditorPosition :=
  ⟨n, (getLine doc n).length⟩

/-- `Markdown.appendAfterLine`: insert a newline plus the text at the end of
the given line. -/
def appendAfterLine (doc : List String) (n : Nat) (text : String) : EditorChange :=
  ⟨"\n" ++ text, lineEndPosition doc n, none⟩

/-- `Markdown.appendToEnd`: append after the last line. -/
def appendToEnd (doc : List String) (text : String) : EditorChange :=
  appendAfterLine doc (doc.length - 1) text

/-- `Markdown.replaceLine`: replace the whole text of one line. -/
def replaceLine (doc : List String) (n : Nat) (text : String) : EditorChange :=
  ⟨text, lineStartPosition n, some (lineEndPosition doc n)⟩

/-- `Markdown.deleteLine`: delete the line range (one line when `toLine` is
absent).  For line 0 the deleted range starts at the line start, otherwise
at the end of the previous line. -/
def deleteLine (doc : List String) (fromLine : Nat) (toLine : Option Nat) : EditorChange :=
  let startPosition :=
    if fromLine = 0 then lineStartPosition 0 else lineEndPosition doc (fromLine - 1)
  let endPosition := lineEndPosition doc (toLine.getD fromLine)
  ⟨"", startPosition, some endPosition⟩

/-! ## Ancestor resolution (`Markdown.getTask`) -/

/-- The upward scan of the resolver: `q` encodes `parentLineNumber + 1`, so
`q = 0` means the scan ran past the start of the document.  Skip lines whose
indent is at least `cur` and return the encoded index of the first line with
a smaller indent. -/
def scanUp (doc : List String) (q : Nat) (cur : Nat) : Nat :=
  match q with
  | 0 => 0
  | p + 1 => if indentLevel doc p ≥ cur then scanUp doc p cur else p + 1

/-- The parent-finding loop of `getTask`.  `fuel` is the next target parent
indent level plus one (the loop runs for levels `fuel - 1, fuel - 2, ..., 0`),
`q` encodes the scan position as in `scanUp`, and `cur` is the current indent
level.  Parents are returned outermost first. -/
def findParents (doc : List String) (fuel : Nat) (q : Nat) (cur : Nat) : List String :=
  match fuel with
  | 0 => []
  | l + 1 =>
    let q2 := scanUp doc q cur
    match q2 with
    | 0 => []
    | pn + 1 =>
      if isBulletTask doc pn && indentLevel doc pn == l then
        findParents doc l (pn + 1) l ++ [getLine doc pn]
      else []

/-- `Markdown.getTask`: `none` when the line is not a task, otherwise the
task line together with its resolved ancestor chain. -/
def getTask (doc : List String) (n : Nat) : Option Task :=
  if isBulletTask doc n then
    some (Task.make (findParents doc (indentLevel doc n) n (indentLevel doc n))
      (getLine doc n) [])
  else none

/-! ## The archive locator / merger (`archiveTask`) -/

/-- Scan a line range for a line equal to `target`, starting at `start`,
downward only (the history / today section searches). -/
def findLineFromAux (target : String) : List String → Nat → Option Nat
  | [], _ => none
  | s :: rest, idx => if s == target then some idx else findLineFromAux target rest (idx + 1)

/-- Search for the first line equal to `target` at index `start` or later. -/
def findLineFrom (doc : List String) (start : Nat) (target : String) : Option Nat :=
  findLineFromAux target (doc.drop start) start

/-- Inner while loop of the ancestor matching: advance past archivable lines
which are deeper than the current parent level, or siblings at the level that
do not match the expected parent text. -/
def advanceWhile (doc : List String) (fuel : Nat) (ln : Nat) (level : Nat)
    (ptext : String) : Nat :=
  match fuel with
  | 0 => ln
  | f + 1 =>
    if isArchiveTask doc ln &&
        (decide (indentLevel doc ln > level) ||
          (decide (indentLevel doc ln = level) && !isSameTask (getLine doc ln) ptext)) then
      advanceWhile doc f (ln + 1) level ptext
    else ln

/-- The ancestor-matching loop of `archiveTask`: walk the archive list,
matching the parents in order; stop early when the list (or sublist) ends
before the expected parent is found.  Returns the final line cursor and the
final parent level. -/
def matchParents (doc : List String) (parents : List String) (ln : Nat)
    (level : Nat) : Nat × Nat :=
  match parents with
  | [] => (ln, level)
  | p :: rest =>
    let ln2 := advanceWhile doc doc.length ln level p
    if !isArchiveTask doc ln2 || decide (indentLevel doc ln2 < level) then
      (ln2, level)
    else if decide (indentLevel doc ln2 = level) && isSameTask (getLine doc ln2) p then
      matchParents doc rest (ln2 + 1) (level + 1)
    else
      matchParents doc rest ln2 (level + 1)

/-- Iterate to the end of the current list or sublist, exiting early when a
line at the current level matches the task itself. -/
def scanToEnd (doc : List String) (fuel : Nat) (ln : Nat) (level : Nat)
    (ttext : String) : Nat :=
  match fuel with
  | 0 => ln
  | f + 1 =>
    if isArchiveTask doc ln && decide (indentLevel doc ln ≥ level) then
      if decide (indentLevel doc ln = level) && isSameTask (getLine doc ln) ttext then ln
      else scanToEnd doc f (ln + 1) level ttext
    else ln

/-- The merge step of `archiveTask` when today's subsection already exists
(the source's else branch after the subsection searches): walk the archive
matching ancestors, scan to the end of the list or sublist, and either
replace a matching existing line in place or append the rendered task after
the run. -/
def archiveSectionChanges (doc : List String) (task : Task)
    (todayLineNumber : Nat) : List EditorChange :=
  let r := matchParents doc task.parents (todayLineNumber + 1) 0
  let ln2 := scanToEnd doc doc.length r.1 r.2 task.task
  if decide (indentLevel doc ln2 = r.2) && isSameTask (getLine doc ln2) task.task then
    [replaceLine doc ln2 task.task]
  else
    [appendAfterLine doc (ln2 - 1) (task.render r.2)]

/-- The list of edits accumulated by one `archiveTask` invocation on a task
line: find or create the history section and today's subsection, locate the
insertion or replacement point, and optionally delete the source line last. -/
def archivePlan (doc : List String) (taskLineNumber : Nat) (t0 : Task)
    (completeTask : Bool) (today : String) : List EditorChange :=
  let task := if completeTask then t0.markAsCompleted else t0.markAsInProgress
  let historyStep :=
    match findLineFrom doc (taskLineNumber + 1) "# History" with
    | some h => (([] : List EditorChange), h)
    | none => ([appendToEnd doc "# History"], doc.length)
  let historyLineNumber := historyStep.2
  let todayStep :=
    match findLineFrom doc (historyLineNumber + 1) ("## " ++ today) with
    | some t => (([] : List EditorChange), t, false)
    | none =>
      ([appendAfterLine doc historyLineNumber ("## " ++ today)], historyLineNumber, true)
  let todayLineNumber := todayStep.2.1
  let archiveChanges :=
    if todayStep.2.2 then
      [appendAfterLine doc todayLineNumber (task.render 0)]
    else
      archiveSectionChanges doc task todayLineNumber
  let deleteChanges := if completeTask then [deleteLine doc taskLineNumber none] else []
  historyStep.1 ++ todayStep.1 ++ archiveChanges ++ deleteChanges

/-! ## Transaction application against the buffer -/

/-- The full document text: lines joined by newlines. -/
def docTextData : List String → List Char
  | [] => []
  | [s] => s.data
  | s :: rest => s.data ++ '\n' :: docTextData rest

/-- Character offset of the start of line `n`. -/
def offsetOfLine : List String → Nat → Nat
  | _, 0 => 0
  | [], _ + 1 => 0
  | s :: rest, n + 1 => s.length + 1 + offsetOfLine rest n

/-- Resolve a position to a character offset.  Modelled from the spec: the
host buffer clips positions, resolving a position past the last line to the
document end (required by the worked example of spec section 8, which
appends the new history section at the end of the document). -/
def posToOffset (doc : List String) (p : EditorPosition) : Nat :=
  if p.line + 1 ≤ doc.length then
    offsetOfLine doc p.line + min p.ch (getLine doc p.line).length
  else (docTextData doc).length

/-- A change resolved to offsets in the pre-transaction text. -/
def resolveChange (doc : List String) (c : EditorChange) : Nat × Nat × List Char :=
  let f := posToOffset doc c.fromPos
  let t := match c.toPos with
    | some p => posToOffset doc p
    | none => f
  (f, t, c.text.data)

/-- Stable insertion of a resolved change by start offset: the change goes
after every already-sorted change with a strictly smaller start offset and
before changes with the same one that originate later in the batch. -/
def insertSorted (c : Nat × Nat × List Char) :
    List (Nat × Nat × List Char) → List (Nat × Nat × List Char)
  | [] => [c]
  | d :: ds => if d.1 < c.1 then d :: insertSorted c ds else c :: d :: ds

/-- Stable sort of the resolved changes by start offset. -/
def sortChanges : List (Nat × Nat × List Char) → List (Nat × Nat × List Char)
  | [] => []
  | c :: cs => insertSorted c (sortChanges cs)

/-- Apply sorted non-overlapping resolved changes to the text: keep the text
between `pos` and the next change's start, splice in the replacement, and
continue after the replaced range. -/
def applyResolved (s : List Char) (pos : Nat) :
    List (Nat × Nat × List Char) → List Char
  | [] => s.drop pos
  | (f, t, txt) :: rest => (s.drop pos).take (f - pos) ++ (txt ++ applyResolved s t rest)

/-- Split the post-transaction text back into lines. -/
def splitLines : List Char → List String
  | [] => [""]
  | c :: rest =>
    if c = '\n' then "" :: splitLines rest
    else
      match splitLines rest with
      | [] => [⟨[c]⟩]
      | s :: ss => ⟨c :: s.data⟩ :: ss

/-- `editor.transaction`: apply one batch of edits, all resolved against the
pre-transaction document, as one atomic change. -/
def applyChanges (doc : List String) (changes : List EditorChange) : List String :=
  splitLines (applyResolved (docTextData doc) 0 (sortChanges (changes.map (resolveChange doc))))

/-- Observable outcome of one command invocation: the resulting document,
the cursor position after the call, and how many editor transactions were
applied. -/
structure ArchiveResult where
  doc : List String
  cursor : EditorPosition
  transactions : Nat
deriving Repr, DecidableEq

/-- `archiveTask`: the whole command.  A silent no-op (no transaction) when
the cursor line is not a task; otherwise one transaction with the plan's
edits, and the cursor is reset to its original position. -/
def archiveTask (doc : List String) (cursor : EditorPosition) (completeTask : Bool)
    (today : String) : ArchiveResult :=
  if isBulletTask doc cursor.line then
    match getTask doc cursor.line with
    | some t0 => ⟨applyChanges doc (archivePlan doc cursor.line t0 completeTask today),
        cursor, 1⟩
    | none => ⟨doc, cursor, 0⟩
  else ⟨doc, cursor, 0⟩

/-- Spec-side normalization, written from the spec's words: "strips
surrounding whitespace and any one leading bullet/checkbox marker
(`"- [ ] "`, `"- [x] "`, or `"- "`) before comparing".  Used only to compare
against the source's `stripTask`. -/
def specNormalize (s : String) : String :=
  let t := trimChars s.data
  match ["- [ ] ".data, "- [x] ".data, "- ".data].find? (fun p => p.isPrefixOf t) with
  | some p => ⟨t.drop p.length⟩
  | none => ⟨t⟩

/-! ## Helper lemmas -/

theorem getTask_eq_some_of_isBulletTask (doc : List String) (n : Nat)
    (h : isBulletTask doc n = true) :
    getTask doc n
      = some (Task.make (findParents doc (indentLevel doc n) n (indentLevel doc n))
          (getLine doc n) []) := by
  simp [getTask, h]

theorem isBulletTask_of_getTask (doc : List String) (n : Nat) (t : Task)
    (h : getTask doc n = some t) : isBulletTask doc n = true := by
  cases hbt : isBulletTask doc n with
  | false => simp [getTask, hbt] at h
  | true => rfl

theorem getD_drop_str (l : List String) (i k : Nat) :
    (l.drop i).getD k "" = l.getD (i + k) "" := by
  induction l generalizing i k with
  | nil => simp
  | cons x xs ih =>
    cases i with
    | zero => simp
    | succ j =>
      have harith : j + 1 + k = (j + k) + 1 := by omega
      simp only [List.drop_succ_cons, harith, List.getD_cons_succ]
      exact ih j k

theorem findLineFromAux_none (target : String) (l : List String) (idx : Nat)
    (h : ∀ k, k < l.length → l.getD k "" ≠ target) :
    findLineFromAux target l idx = none := by
  induction l generalizing idx with
  | nil => rfl
  | cons s rest ih =>
    have h0 : s ≠ target := by simpa using h 0 (by simp)
    have hrec := ih (idx + 1) (fun k hk => by simpa using h (k + 1) (by simpa using hk))
    simpa [findLineFromAux, beq_iff_eq, h0] using hrec

theorem findLineFrom_none (doc : List String) (start : Nat) (target : String)
    (h : ∀ i, start ≤ i → i < doc.length → getLine doc i ≠ target) :
    findLineFrom doc start target = none := by
  apply findLineFromAux_none
  intro k hk
  rw [getD_drop_str]
  have hlen : k < doc.length - start := by simpa using hk
  exact h (start + k) (by omega) (by omega)

theorem leadingTabs_ws_dash (ws t1 t2 : List Char) :
    leadingTabs (ws ++ '-' :: t1) = leadingTabs (ws ++ '-' :: t2) := by
  induction ws with
  | nil =>
    show (if ('-' : Char) = '\t' then _ else 0) = (if ('-' : Char) = '\t' then _ else 0)
    rw [if_neg (by decide), if_neg (by decide)]
  | cons c cs ih =>
    show (if c = '\t' then _ + 1 else 0) = (if c = '\t' then _ + 1 else 0)
    split
    · exact congrArg (fun x => x + 1) ih
    · rfl

theorem lineIndent_bulletTaskRewrite (s : String) :
    lineIndent (bulletTaskRewrite "-" s) = lineIndent s := by
  by_cases h : "- [ ]".data.isPrefixOf (s.data.dropWhile jsWs) = true
  · have hpre : "- [ ]".data ++ (s.data.dropWhile jsWs).drop 5 = s.data.dropWhile jsWs := by
      have := List.prefix_iff_eq_append.mp (List.isPrefixOf_iff_prefix.mp h)
      simpa using this
    have hsplit : s.data = s.data.takeWhile jsWs ++ s.data.dropWhile jsWs :=
      (List.takeWhile_append_dropWhile jsWs s.data).symm
    rw [bulletTaskRewrite, if_pos h]
    show leadingTabs (s.data.takeWhile jsWs ++ "-".data ++ (s.data.dropWhile jsWs).drop 5)
      = leadingTabs s.data
    conv_rhs => rw [hsplit, ← hpre]
    have : s.data.takeWhile jsWs ++ "-".data ++ (s.data.dropWhile jsWs).drop 5
        = s.data.takeWhile jsWs ++ '-' :: (s.data.dropWhile jsWs).drop 5 := by
      simp
    rw [this]
    exact leadingTabs_ws_dash _ _ _
  · rw [bulletTaskRewrite, if_neg h]

theorem range'_snoc (s n : Nat) : List.range' s n ++ [s + n] = List.range' s (n + 1) := by
  rw [List.range'_concat, one_mul]

theorem findParents_fuel_succ_stop (doc : List String) (l q cur : Nat)
    (hq : scanUp doc q cur = 0) : findParents doc (l + 1) q cur = [] := by
  rw [findParents, hq]

theorem findParents_fuel_succ_step (doc : List String) (l q cur pn : Nat)
    (hq : scanUp doc q cur = pn + 1) :
    findParents doc (l + 1) q cur
      = if isBulletTask doc pn && indentLevel doc pn == l then
          findParents doc l (pn + 1) l ++ [getLine doc pn]
        else [] := by
  rw [findParents, hq]

theorem findParents_indents (doc : List String) (fuel : Nat) :
    ∀ q cur : Nat,
      (findParents doc fuel q cur).map lineIndent
        = List.range' (fuel - (findParents doc fuel q cur).length)
            (findParents doc fuel q cur).length
      ∧ (findParents doc fuel q cur).length ≤ fuel := by
  induction fuel with
  | zero => intro q cur; simp [findParents]
  | succ l ih =>
    intro q cur
    cases hq : scanUp doc q cur with
    | zero => rw [findParents_fuel_succ_stop doc l q cur hq]; simp
    | succ pn =>
      rw [findParents_fuel_succ_step doc l q cur pn hq]
      by_cases hc : (isBulletTask doc pn && indentLevel doc pn == l) = true
      · rw [if_pos hc]
        have hind : lineIndent (getLine doc pn) = l := by
          have hbeq := ((Bool.and_eq_true _ _).mp hc).2
          simpa [indentLevel] using hbeq
        obtain ⟨ih1, ih2⟩ := ih (pn + 1) l
        constructor
        · rw [List.map_append, ih1]
          simp only [List.map_cons, List.map_nil, hind, List.length_append,
            List.length_cons, List.length_nil]
          have hsub : l + 1 - ((findParents doc l (pn + 1) l).length + 0 + 1)
              = l - (findParents doc l (pn + 1) l).length := by omega
          rw [hsub]
          have hcancel : l - (findParents doc l (pn + 1) l).length
              + (findParents doc l (pn + 1) l).length = l := by omega
          calc List.range' (l - (findParents doc l (pn + 1) l).length)
                (findParents doc l (pn + 1) l).length ++ [l]
              = List.range' (l - (findParents doc l (pn + 1) l).length)
                  (findParents doc l (pn + 1) l).length
                ++ [l - (findParents doc l (pn + 1) l).length
                    + (findParents doc l (pn + 1) l).length] := by rw [hcancel]
            _ = List.range' (l - (findParents doc l (pn + 1) l).length)
                  ((findParents doc l (pn + 1) l).length + 1) := range'_snoc _ _
            _ = _ := by simp
        · simpa using Nat.succ_le_succ ih2
      · rw [if_neg hc]; simp

theorem lt_length_of_isBulletTask (doc : List String) (n : Nat)
    (h : isBulletTask doc n = true) : n < doc.length := by
  rw [isBulletTask] at h
  have hb := ((Bool.and_eq_true _ _).mp h).1
  have := of_decide_eq_true hb
  omega

theorem findLineFromAux_ge (target : String) (l : List String) :
    ∀ idx i : Nat, findLineFromAux target l idx = some i → idx ≤ i := by
  induction l with
  | nil => intro idx i h; simp [findLineFromAux] at h
  | cons s rest ih =>
    intro idx i h
    rw [findLineFromAux] at h
    by_cases hc : (s == target) = true
    · rw [if_pos hc] at h
      cases h
      omega
    · rw [if_neg hc] at h
      have := ih (idx + 1) i h
      omega

theorem findLineFrom_ge (doc : List String) (start : Nat) (target : String) (i : Nat)
    (h : findLineFrom doc start target = some i) : start ≤ i :=
  findLineFromAux_ge target (doc.drop start) start i h

theorem advanceWhile_ge (doc : List String) (fuel : Nat) :
    ∀ ln level ptext, ln ≤ advanceWhile doc fuel ln level ptext := by
  induction fuel with
  | zero => intro ln level ptext; rw [advanceWhile]
  | succ f ih =>
    intro ln level ptext
    rw [advanceWhile]
    split
    · have := ih (ln + 1) level ptext
      omega
    · exact Nat.le_refl ln

theorem matchParents_ge (doc : List String) (parents : List String) :
    ∀ ln level, ln ≤ (matchParents doc parents ln level).1 := by
  induction parents with
  | nil => intro ln level; rw [matchParents]
  | cons p rest ih =>
    intro ln level
    have h1 := advanceWhile_ge doc doc.length ln level p
    simp only [matchParents]
    split
    · exact h1
    · split
      · have := ih (advanceWhile doc doc.length ln level p + 1) (level + 1)
        omega
      · have := ih (advanceWhile doc doc.length ln level p) (level + 1)
        omega

theorem scanToEnd_ge (doc : List String) (fuel : Nat) :
    ∀ ln level t, ln ≤ scanToEnd doc fuel ln level t := by
  induction fuel with
  | zero => intro ln level t; rw [scanToEnd]
  | succ f ih =>
    intro ln level t
    rw [scanToEnd]
    split
    · split
      · exact Nat.le_refl ln
      · have := ih (ln + 1) level t
        omega
    · exact Nat.le_refl ln

theorem offsetOfLine_succ (doc : List String) :
    ∀ n, n < doc.length →
      offsetOfLine doc (n + 1) = offsetOfLine doc n + (getLine doc n).length + 1 := by
  induction doc with
  | nil => intro n h; simp at h
  | cons s rest ih =>
    intro n h
    cases n with
    | zero =>
      show s.length + 1 + offsetOfLine rest 0 = 0 + s.length + 1
      have h0 : offsetOfLine rest 0 = 0 := by cases rest <;> rfl
      omega
    | succ m =>
      show s.length + 1 + offsetOfLine rest (m + 1)
        = s.length + 1 + offsetOfLine rest m + (getLine rest m).length + 1
      rw [ih m (by simpa using Nat.lt_of_succ_lt_succ h)]
      omega

theorem offsetOfLine_mono (doc : List String) :
    ∀ m n : Nat, m ≤ n → offsetOfLine doc m ≤ offsetOfLine doc n := by
  induction doc with
  | nil => intro m n _; cases m <;> cases n <;> simp [offsetOfLine]
  | cons s rest ih =>
    intro m n h
    cases m with
    | zero =>
      show 0 ≤ offsetOfLine (s :: rest) n
      exact Nat.zero_le _
    | succ i =>
      cases n with
      | zero => omega
      | succ j =>
        show s.length + 1 + offsetOfLine rest i ≤ s.length + 1 + offsetOfLine rest j
        have := ih i j (by omega)
        omega

theorem posToOffset_lineStart (doc : List String) (n : Nat) (h : n < doc.length) :
    posToOffset doc (lineStartPosition n) = offsetOfLine doc n := by
  rw [posToOffset, if_pos (show (lineStartPosition n).line + 1 ≤ doc.length from by
    show n + 1 ≤ doc.length
    omega)]
  show offsetOfLine doc n + min 0 (getLine doc n).length = offsetOfLine doc n
  simp

theorem posToOffset_lineEnd (doc : List String) (n : Nat) (h : n < doc.length) :
    posToOffset doc (lineEndPosition doc n)
      = offsetOfLine doc n + (getLine doc n).length := by
  rw [posToOffset, if_pos (show (lineEndPosition doc n).line + 1 ≤ doc.length from by
    show n + 1 ≤ doc.length
    omega)]
  show offsetOfLine doc n + min (getLine doc n).length (getLine doc n).length
    = offsetOfLine doc n + (getLine doc n).length
  simp

theorem resolveChange_replaceLine (doc : List String) (n : Nat) (text : String)
    (h : n < doc.length) :
    resolveChange doc (replaceLine doc n text)
      = (offsetOfLine doc n, offsetOfLine doc n + (getLine doc n).length, text.data) := by
  show (posToOffset doc (lineStartPosition n), posToOffset doc (lineEndPosition doc n),
    text.data) = _
  rw [posToOffset_lineStart doc n h, posToOffset_lineEnd doc n h]

theorem resolveChange_deleteLine (doc : List String) (n : Nat) (h : n < doc.length) :
    ∃ df, resolveChange doc (deleteLine doc n none)
        = (df, offsetOfLine doc n + (getLine doc n).length, [])
      ∧ df ≤ offsetOfLine doc n := by
  by_cases h0 : n = 0
  · subst h0
    refine ⟨posToOffset doc (lineStartPosition 0), ?_, ?_⟩
    · show (posToOffset doc (if (0 : Nat) = 0 then lineStartPosition 0
          else lineEndPosition doc (0 - 1)),
        posToOffset doc (lineEndPosition doc ((none : Option Nat).getD 0)), ([] : List Char)) = _
      rw [if_pos rfl]
      show (posToOffset doc (lineStartPosition 0),
        posToOffset doc (lineEndPosition doc 0), ([] : List Char)) = _
      rw [posToOffset_lineEnd doc 0 h]
    · rw [posToOffset_lineStart doc 0 h]
  · obtain ⟨j, rfl⟩ : ∃ j, n = j + 1 := ⟨n - 1, by omega⟩
    refine ⟨offsetOfLine doc j + (getLine doc j).length, ?_, ?_⟩
    · show (posToOffset doc (if j + 1 = 0 then lineStartPosition 0
          else lineEndPosition doc (j + 1 - 1)),
        posToOffset doc (lineEndPosition doc ((none : Option Nat).getD (j + 1))),
        ([] : List Char)) = _
      rw [if_neg (by omega)]
      show (posToOffset doc (lineEndPosition doc j),
        posToOffset doc (lineEndPosition doc (j + 1)), ([] : List Char)) = _
      rw [posToOffset_lineEnd doc (j + 1) h, posToOffset_lineEnd doc j (by omega)]
    · have := offsetOfLine_succ doc j (by omega)
      omega

theorem text_extract_line (doc : List String) :
    ∀ n, n < doc.length →
      ((docTextData doc).drop (offsetOfLine doc n)).take (getLine doc n).length
        = (getLine doc n).data := by
  induction doc with
  | nil => intro n h; simp at h
  | cons s rest ih =>
    intro n h
    cases n with
    | zero =>
      cases rest with
      | nil =>
        show (s.data.drop 0).take s.data.length = s.data
        rw [List.drop_zero, List.take_length]
      | cons r rs =>
        show ((s.data ++ '\n' :: docTextData (r :: rs)).drop 0).take s.data.length = s.data
        rw [List.drop_zero, List.take_left]
    | succ m =>
      cases rest with
      | nil => simp at h
      | cons r rs =>
        show ((s.data ++ '\n' :: docTextData (r :: rs)).drop
            (s.length + 1 + offsetOfLine (r :: rs) m)).take (getLine (r :: rs) m).length
          = (getLine (r :: rs) m).data
        have harith : s.length + 1 + offsetOfLine (r :: rs) m
            = s.data.length + (offsetOfLine (r :: rs) m + 1) := by
          show s.data.length + 1 + offsetOfLine (r :: rs) m = _
          omega
        rw [harith, List.drop_append, List.drop_succ_cons]
        exact ih m (by simpa using Nat.lt_of_succ_lt_succ h)

theorem applyResolved_single (s : List Char) (f t : Nat) (txt : List Char) :
    applyResolved s 0 [(f, t, txt)] = s.take f ++ (txt ++ s.drop t) := by
  show (s.drop 0).take (f - 0) ++ (txt ++ applyResolved s t []) = _
  rw [List.drop_zero, Nat.sub_zero]
  rfl

theorem applyResolved_pair (s : List Char) (df dt rf rt : Nat) (txt : List Char) :
    applyResolved s 0 [(df, dt, []), (rf, rt, txt)]
      = s.take df ++ ((s.drop dt).take (rf - dt) ++ (txt ++ s.drop rt)) := by
  show (s.drop 0).take (df - 0)
      ++ ([] ++ ((s.drop dt).take (rf - dt) ++ (txt ++ applyResolved s rt []))) = _
  rw [List.drop_zero, Nat.sub_zero, List.nil_append]
  rfl

theorem splice_self (s : List Char) (dt rf rt : Nat) (h1 : dt ≤ rf) (h2 : rf ≤ rt) :
    (s.drop dt).take (rf - dt) ++ (((s.drop rf).take (rt - rf)) ++ s.drop rt)
      = s.drop dt := by
  have e1 : s.drop rf = (s.drop dt).drop (rf - dt) := by
    rw [List.drop_drop]
    congr 1
    omega
  have e2 : s.drop rt = ((s.drop dt).drop (rf - dt)).drop (rt - rf) := by
    rw [List.drop_drop, List.drop_drop]
    congr 1
    omega
  rw [e1, e2, List.take_append_drop, List.take_append_drop]

theorem sortChanges_pair (c d : Nat × Nat × List Char) (h : d.1 < c.1) :
    sortChanges [c, d] = [d, c] := by
  show insertSorted c (insertSorted d (sortChanges [])) = [d, c]
  show insertSorted c [d] = [d, c]
  rw [insertSorted, if_pos h]
  rfl

theorem archivePlan_today_found (doc : List String) (taskLineNumber : Nat) (t0 : Task)
    (b : Bool) (today : String) (hl tl : Nat)
    (hH : findLineFrom doc (taskLineNumber + 1) "# History" = some hl)
    (hT : findLineFrom doc (hl + 1) ("## " ++ today) = some tl) :
    archivePlan doc taskLineNumber t0 b today
      = archiveSectionChanges doc (if b then t0.markAsCompleted else t0.markAsInProgress) tl
        ++ (if b then [deleteLine doc taskLineNumber none] else []) := by
  rw [archivePlan, hH, hT]
  rfl

theorem archiveSectionChanges_replace (doc : List String) (task : Task)
    (todayLineNumber : Nat) (r : Nat × Nat) (ln2 : Nat)
    (hr : r = matchParents doc task.parents (todayLineNumber + 1) 0)
    (hln : ln2 = scanToEnd doc doc.length r.1 r.2 task.task)
    (hdepth : indentLevel doc ln2 = r.2)
    (hsame : isSameTask (getLine doc ln2) task.task = true) :
    archiveSectionChanges doc task todayLineNumber = [replaceLine doc ln2 task.task] := by
  subst hr hln
  simp only [archiveSectionChanges]
  rw [if_pos ((Bool.and_eq_true _ _).mpr ⟨decide_eq_true hdepth, hsame⟩)]

theorem archiveTask_replace_case (doc : List String) (p : EditorPosition) (t0 : Task)
    (b : Bool) (today : String) (hl tl : Nat) (task : Task) (r : Nat × Nat) (ln2 : Nat)
    (hg : getTask doc p.line = some t0)
    (hH : findLineFrom doc (p.line + 1) "# History" = some hl)
    (hT : findLineFrom doc (hl + 1) ("## " ++ today) = some tl)
    (htask : task = if b then t0.markAsCompleted else t0.markAsInProgress)
    (hr : r = matchParents doc task.parents (tl + 1) 0)
    (hln : ln2 = scanToEnd doc doc.length r.1 r.2 task.task)
    (hdepth : indentLevel doc ln2 = r.2)
    (hsame : isSameTask (getLine doc ln2) task.task = true) :
    archiveTask doc p b today
      = ⟨applyChanges doc ([replaceLine doc ln2 task.task]
          ++ (if b then [deleteLine doc p.line none] else [])), p, 1⟩ := by
  subst htask hr hln
  have hbt := isBulletTask_of_getTask doc p.line t0 hg
  rw [archiveTask, if_pos hbt, hg]
  show ArchiveResult.mk (applyChanges doc (archivePlan doc p.line t0 b today)) p 1 = _
  rw [archivePlan_today_found doc p.line t0 b today hl tl hH hT,
    archiveSectionChanges_replace doc _ tl _ _ rfl rfl hdepth hsame]

theorem archiveTask_second_completion (doc : List String) (p : EditorPosition)
    (t0 : Task) (today : String) (hl tl : Nat) (r : Nat × Nat) (ln2 : Nat)
    (hg : getTask doc p.line = some t0)
    (hH : findLineFrom doc (p.line + 1) "# History" = some hl)
    (hT : findLineFrom doc (hl + 1) ("## " ++ today) = some tl)
    (hr : r = matchParents doc t0.markAsCompleted.parents (tl + 1) 0)
    (hln : ln2 = scanToEnd doc doc.length r.1 r.2 t0.markAsCompleted.task)
    (hdepth : indentLevel doc ln2 = r.2)
    (hlt : ln2 < doc.length)
    (hEq : getLine doc ln2 = t0.markAsCompleted.task) :
    (archiveTask doc p true today).doc = applyChanges doc [deleteLine doc p.line none] := by
  have hsame : isSameTask (getLine doc ln2) t0.markAsCompleted.task = true := by
    rw [hEq, isSameTask]
    simp
  have hrw := archiveTask_replace_case doc p t0 true today hl tl t0.markAsCompleted r ln2
    hg hH hT rfl hr hln hdepth hsame
  rw [hrw]
  show applyChanges doc [replaceLine doc ln2 t0.markAsCompleted.task,
    deleteLine doc p.line none] = applyChanges doc [deleteLine doc p.line none]
  have hp : p.line < doc.length :=
    lt_length_of_isBulletTask doc p.line (isBulletTask_of_getTask doc p.line t0 hg)
  have hpl : p.line + 1 ≤ ln2 := by
    have h1 := findLineFrom_ge doc (p.line + 1) "# History" hl hH
    have h2 := findLineFrom_ge doc (hl + 1) ("## " ++ today) tl hT
    have h3 := matchParents_ge doc t0.markAsCompleted.parents (tl + 1) 0
    have h4 := scanToEnd_ge doc doc.length r.1 r.2 t0.markAsCompleted.task
    rw [← hr] at h3
    rw [← hln] at h4
    omega
  obtain ⟨df, hdel, hdfle⟩ := resolveChange_deleteLine doc p.line hp
  have hrep := resolveChange_replaceLine doc ln2 t0.markAsCompleted.task hlt
  have hdtrf : offsetOfLine doc p.line + (getLine doc p.line).length
      < offsetOfLine doc ln2 := by
    have h1 := offsetOfLine_succ doc p.line hp
    have h2 := offsetOfLine_mono doc (p.line + 1) ln2 hpl
    omega
  simp only [applyChanges, List.map_cons, List.map_nil]
  rw [hrep, hdel]
  rw [sortChanges_pair _ _ (show df < offsetOfLine doc ln2 by omega)]
  have hs1 : sortChanges [(df, offsetOfLine doc p.line + (getLine doc p.line).length,
      ([] : List Char))]
      = [(df, offsetOfLine doc p.line + (getLine doc p.line).length, [])] := rfl
  rw [hs1, applyResolved_pair, applyResolved_single]
  have htxt : t0.markAsCompleted.task.data
      = ((docTextData doc).drop (offsetOfLine doc ln2)).take
          (offsetOfLine doc ln2 + (getLine doc ln2).length - offsetOfLine doc ln2) := by
    rw [show offsetOfLine doc ln2 + (getLine doc ln2).length - offsetOfLine doc ln2
        = (getLine doc ln2).length from by omega,
      text_extract_line doc ln2 hlt, hEq]
  rw [htxt, splice_self (docTextData doc)
      (offsetOfLine doc p.line + (getLine doc p.line).length)
      (offsetOfLine doc ln2) (offsetOfLine doc ln2 + (getLine doc ln2).length)
      (by omega) (by omega),
    List.nil_append]

/-! ## Claim theorems -/

/-- Claim C9: if the cursor line is not a recognized task line, both
Complete Task and Progress Task are silent no-ops: no transaction is
applied, the document is unchanged, and no error is raised. -/
theorem claim_C9_noop_on_non_task (doc : List String) (cursor : EditorPosition)
    (today : String) (h : isBulletTask doc cursor.line = false) :
    archiveTask doc cursor true today = ⟨doc, cursor, 0⟩ ∧
    archiveTask doc cursor false today = ⟨doc, cursor, 0⟩ := by
  constructor <;> simp [archiveTask, h]

/-- Witness for claim C9 at a concrete non-task document. -/
theorem claim_C9_witness :
    archiveTask ["hello"] ⟨0, 0⟩ true "2026-10-12" = ⟨["hello"], ⟨0, 0⟩, 0⟩ ∧
    archiveTask ["hello"] ⟨0, 0⟩ false "2026-10-12" = ⟨["hello"], ⟨0, 0⟩, 0⟩ :=
  claim_C9_noop_on_non_task ["hello"] ⟨0, 0⟩ "2026-10-12" (by decide)

/-- Claim C8: on a recognized task line, each invocation applies exactly one
editor transaction and the cursor position after the call equals the cursor
position before the call. -/
theorem claim_C8_one_transaction_cursor_preserved (doc : List String)
    (cursor : EditorPosition) (b : Bool) (today : String)
    (h : isBulletTask doc cursor.line = true) :
    (archiveTask doc cursor b today).transactions = 1 ∧
    (archiveTask doc cursor b today).cursor = cursor := by
  have hg := getTask_eq_some_of_isBulletTask doc cursor.line h
  constructor <;> simp [archiveTask, h, hg]

/-- Witness for claim C8 at a concrete task document. -/
theorem claim_C8_witness :
    (archiveTask ["- [ ] T"] ⟨0, 0⟩ true "2026-10-12").transactions = 1 ∧
    (archiveTask ["- [ ] T"] ⟨0, 0⟩ true "2026-10-12").cursor = ⟨0, 0⟩ :=
  claim_C8_one_transaction_cursor_preserved ["- [ ] T"] ⟨0, 0⟩ true "2026-10-12" (by decide)

/-- Claim C1, evaluated at the failing input: progressing the single task
`- [ ] T` archives `- [/] T`; completing it afterwards does not overwrite
that entry (because `stripTask` does not strip the in-progress marker, so
`isSameTask "- [/] T" "- [x] T"` is false) and instead inserts a second
entry `- [x] T`.  The archive ends with two entries for the task, the
in-progress one still unchecked, contradicting the claim. -/
theorem claim_C1_progress_then_complete_two_entries :
    (archiveTask ["- [ ] T"] ⟨0, 0⟩ false "2026-10-12").doc
      = ["- [ ] T", "# History", "## 2026-10-12", "- [/] T"] ∧
    (archiveTask ["- [ ] T", "# History", "## 2026-10-12", "- [/] T"] ⟨0, 0⟩ true
        "2026-10-12").doc
      = ["", "# History", "## 2026-10-12", "- [/] T", "- [x] T"] ∧
    isSameTask "- [/] T" "- [x] T" = false :=
  ⟨by decide, by decide, by decide⟩

/-- Claim C4: idempotent completion.  First, universally: whenever today's
subsection exists and the merge scan lands on a line whose indent equals the
matched depth and whose normalized text equals the task's, the whole
invocation resolves to exactly one replacement of that line plus the source
deletion — in place, no insertion.  Second, universally: when that line is
the task's checked entry verbatim (the state a first completion leaves), the
second completion's only effect on the document is deleting the source line,
so the archive state is exactly the state after doing it once — no duplicate
entry.  Finally, a depth-1 run with an ancestor: completing `Buy milk` under
`Groceries` twice ends in the same archive as once, via an in-place
replacement found through ancestor matching. -/
theorem claim_C4_idempotent_completion :
    (∀ (doc : List String) (p : EditorPosition) (t0 : Task) (b : Bool) (today : String)
        (hl tl : Nat) (task : Task) (r : Nat × Nat) (ln2 : Nat),
      getTask doc p.line = some t0 →
      findLineFrom doc (p.line + 1) "# History" = some hl →
      findLineFrom doc (hl + 1) ("## " ++ today) = some tl →
      task = (if b then t0.markAsCompleted else t0.markAsInProgress) →
      r = matchParents doc task.parents (tl + 1) 0 →
      ln2 = scanToEnd doc doc.length r.1 r.2 task.task →
      indentLevel doc ln2 = r.2 →
      isSameTask (getLine doc ln2) task.task = true →
      archiveTask doc p b today
        = ⟨applyChanges doc ([replaceLine doc ln2 task.task]
            ++ (if b then [deleteLine doc p.line none] else [])), p, 1⟩) ∧
    (∀ (doc : List String) (p : EditorPosition) (t0 : Task) (today : String)
        (hl tl : Nat) (r : Nat × Nat) (ln2 : Nat),
      getTask doc p.line = some t0 →
      findLineFrom doc (p.line + 1) "# History" = some hl →
      findLineFrom doc (hl + 1) ("## " ++ today) = some tl →
      r = matchParents doc t0.markAsCompleted.parents (tl + 1) 0 →
      ln2 = scanToEnd doc doc.length r.1 r.2 t0.markAsCompleted.task →
      indentLevel doc ln2 = r.2 →
      ln2 < doc.length →
      getLine doc ln2 = t0.markAsCompleted.task →
      (archiveTask doc p true today).doc
        = applyChanges doc [deleteLine doc p.line none]) ∧
    (archiveTask ["- [ ] Groceries", "\t- [ ] Buy milk"] ⟨1, 0⟩ true "2026-10-12").doc
      = ["- [ ] Groceries", "# History", "## 2026-10-12", "- Groceries",
         "\t- [x] Buy milk"] ∧
    (archiveTask ["- [ ] Groceries", "\t- [ ] Buy milk", "# History", "## 2026-10-12",
        "- Groceries", "\t- [x] Buy milk"] ⟨1, 0⟩ true "2026-10-12").doc
      = ["- [ ] Groceries", "# History", "## 2026-10-12", "- Groceries",
         "\t- [x] Buy milk"] ∧
    archivePlan ["- [ ] Groceries", "\t- [ ] Buy milk", "# History", "## 2026-10-12",
        "- Groceries", "\t- [x] Buy milk"] 1
        (Task.make ["- [ ] Groceries"] "\t- [ ] Buy milk" []) true "2026-10-12"
      = [replaceLine ["- [ ] Groceries", "\t- [ ] Buy milk", "# History", "## 2026-10-12",
           "- Groceries", "\t- [x] Buy milk"] 5 "\t- [x] Buy milk",
         deleteLine ["- [ ] Groceries", "\t- [ ] Buy milk", "# History", "## 2026-10-12",
           "- Groceries", "\t- [x] Buy milk"] 1 none] :=
  ⟨fun doc p t0 b today hl tl task r ln2 hg hH hT htask hr hln hdepth hsame =>
      archiveTask_replace_case doc p t0 b today hl tl task r ln2
        hg hH hT htask hr hln hdepth hsame,
   fun doc p t0 today hl tl r ln2 hg hH hT hr hln hdepth hlt hEq =>
      archiveTask_second_completion doc p t0 today hl tl r ln2
        hg hH hT hr hln hdepth hlt hEq,
   by decide, by decide, by decide⟩

/-- Witness for claim C4: on the depth-1 document whose today subsection
already holds the checked entry, the second completion only deletes the
source line, leaving the archive untouched. -/
theorem claim_C4_witness :
    (archiveTask ["- [ ] Groceries", "\t- [ ] Buy milk", "# History", "## 2026-10-12",
        "- Groceries", "\t- [x] Buy milk"] ⟨1, 0⟩ true "2026-10-12").doc
      = applyChanges ["- [ ] Groceries", "\t- [ ] Buy milk", "# History", "## 2026-10-12",
          "- Groceries", "\t- [x] Buy milk"]
          [deleteLine ["- [ ] Groceries", "\t- [ ] Buy milk", "# History", "## 2026-10-12",
            "- Groceries", "\t- [x] Buy milk"] 1 none] :=
  claim_C4_idempotent_completion.2.1
    ["- [ ] Groceries", "\t- [ ] Buy milk", "# History", "## 2026-10-12",
     "- Groceries", "\t- [x] Buy milk"] ⟨1, 0⟩
    (Task.make ["- [ ] Groceries"] "\t- [ ] Buy milk" []) "2026-10-12" 2 3 (5, 1) 5
    (by decide) (by decide) (by decide) (by decide) (by decide) (by decide)
    (by decide) (by decide)

/-- Claim C3: `isSameTask` compares two lines after stripping surrounding
whitespace and exactly one leading marker among `"- [ ] "`, `"- [x] "`,
`"- "` (stated as agreement with a normalization written from the spec's
words); in particular `- [ ] Buy milk` matches the archived
`  - [x] Buy milk` but not `- [ ] Buy bread`. -/
theorem claim_C3_normalization_matching :
    (∀ t1 t2 : String, isSameTask t1 t2 = (specNormalize t1 == specNormalize t2)) ∧
    isSameTask "- [ ] Buy milk" "  - [x] Buy milk" = true ∧
    isSameTask "- [ ] Buy milk" "- [ ] Buy bread" = false := by
  have hs : ∀ s : String, stripTask s = specNormalize s := by
    intro s
    have l1 : ("- [ ] ".data).length = 6 := rfl
    have l2 : ("- [x] ".data).length = 6 := rfl
    have l3 : ("- ".data).length = 2 := rfl
    unfold stripTask specNormalize
    cases h1 : "- [ ] ".data.isPrefixOf (trimChars s.data) <;>
      cases h2 : "- [x] ".data.isPrefixOf (trimChars s.data) <;>
        cases h3 : "- ".data.isPrefixOf (trimChars s.data) <;>
          simp [h1, h2, h3, List.find?, l1, l2, l3]
  refine ⟨fun t1 t2 => ?_, by decide, by decide⟩
  rw [isSameTask, hs, hs]

/-- Counterexample to claim C7: a checked ancestor line `- [x] P` is not
rewritten to the bare bullet `- P` by the Task constructor; it passes
through unchanged (the constructor's replacement only matches the unchecked
marker `- [ ]`). -/
theorem claim_C7_counterexample :
    (Task.make ["- [x] P"] "\t- [ ] T" []).parents = ["- [x] P"] ∧
    (["- [x] P"] : List String) ≠ ["- P"] :=
  ⟨by decide, by decide⟩

/-- Claim C7 as amended: the Task constructor maps `bulletTaskRewrite "-"`
over the ancestors; an ancestor whose content after the leading whitespace
run begins with the unchecked marker `- [ ]` is rewritten to a bare bullet
with its leading whitespace (hence its indentation) preserved, and every
other ancestor line — including one with the checked marker `- [x]` —
passes through unchanged. -/
theorem claim_C7_constructor_rewrites_unchecked_only :
    (∀ (parents : List String) (task : String) (children : List String),
      (Task.make parents task children).parents = parents.map (bulletTaskRewrite "-")) ∧
    (∀ s : String, "- [ ]".data.isPrefixOf (s.data.dropWhile jsWs) = false →
      bulletTaskRewrite "-" s = s) ∧
    (∀ s : String, "- [ ]".data.isPrefixOf (s.data.dropWhile jsWs) = true →
      (bulletTaskRewrite "-" s).data
          = s.data.takeWhile jsWs ++ '-' :: (s.data.dropWhile jsWs).drop 5 ∧
      lineIndent (bulletTaskRewrite "-" s) = lineIndent s) ∧
    (Task.make ["\t- [ ] P", "# plain", "\t- [x] Q"] "x" []).parents
      = ["\t- P", "# plain", "\t- [x] Q"] := by
  refine ⟨fun _ _ _ => rfl, ?_, ?_, by decide⟩
  · intro s h
    rw [bulletTaskRewrite, if_neg (by simp [h])]
  · intro s h
    constructor
    · rw [bulletTaskRewrite, if_pos h]
      simp
    · exact lineIndent_bulletTaskRewrite s

/-- Witness for the amended claim C7: a checked line passes through the
constructor's rewrite unchanged. -/
theorem claim_C7_witness :
    bulletTaskRewrite "-" "\t- [x] Q" = "\t- [x] Q" :=
  claim_C7_constructor_rewrites_unchecked_only.2.1 "\t- [x] Q" (by decide)

/-- Claim C2: the worked example.  Completing task B in the document
`- [ ] A` / tab `- [ ] B` with no existing history section yields a
document ending in `# History`, `## <today>`, `- A`, tab `- [x] B`, with
the original line 1 removed from the top (stated for every date string at
the text level, and at the line level for a concrete date). -/
theorem claim_C2_worked_example :
    (∀ today : String,
      (archiveTask ["- [ ] A", "\t- [ ] B"] ⟨1, 0⟩ true today).doc
        = splitLines ("- [ ] A\n# History\n## ".data ++
            (today.data ++ "\n- A\n\t- [x] B".data))) ∧
    archiveTask ["- [ ] A", "\t- [ ] B"] ⟨1, 0⟩ true "2026-10-12"
      = ⟨["- [ ] A", "# History", "## 2026-10-12", "- A", "\t- [x] B"], ⟨1, 0⟩, 1⟩ :=
  ⟨fun _ => rfl, by decide⟩

/-- Claim C5: every line the insertion-point scan skips is an archivable
line at the current depth or deeper that does not match the task itself, so
the new entry is appended at the end of that run; consequently two sibling
tasks archived on the same day end up under one shared parent block, in
archival order, the second after the first. -/
theorem claim_C5_insert_at_end_of_run :
    (∀ (doc : List String) (fuel ln level : Nat) (t : String) (j : Nat),
      ln ≤ j → j < scanToEnd doc fuel ln level t →
      isArchiveTask doc j = true ∧ level ≤ indentLevel doc j ∧
        ¬(indentLevel doc j = level ∧ isSameTask (getLine doc j) t = true)) ∧
    archiveTask ["- [ ] P", "\t- [ ] S1", "\t- [ ] S2"] ⟨1, 0⟩ true "2026-10-12"
      = ⟨["- [ ] P", "\t- [ ] S2", "# History", "## 2026-10-12", "- P", "\t- [x] S1"],
         ⟨1, 0⟩, 1⟩ ∧
    archiveTask ["- [ ] P", "\t- [ ] S2", "# History", "## 2026-10-12", "- P",
        "\t- [x] S1"] ⟨1, 0⟩ true "2026-10-12"
      = ⟨["- [ ] P", "# History", "## 2026-10-12", "- P", "\t- [x] S1", "\t- [x] S2"],
         ⟨1, 0⟩, 1⟩ := by
  refine ⟨?_, by decide, by decide⟩
  intro doc fuel ln level t j
  induction fuel generalizing ln with
  | zero =>
    intro h1 h2
    rw [scanToEnd] at h2
    omega
  | succ f ih =>
    intro h1 h2
    rw [scanToEnd] at h2
    by_cases hc : (isArchiveTask doc ln && decide (indentLevel doc ln ≥ level)) = true
    · rw [if_pos hc] at h2
      by_cases hm : (decide (indentLevel doc ln = level)
          && isSameTask (getLine doc ln) t) = true
      · rw [if_pos hm] at h2; omega
      · rw [if_neg hm] at h2
        rcases Nat.eq_or_lt_of_le h1 with heq | hlt
        · subst heq
          obtain ⟨ha, hi⟩ := (Bool.and_eq_true _ _).mp hc
          refine ⟨ha, of_decide_eq_true hi, ?_⟩
          rintro ⟨he, hsame⟩
          exact hm ((Bool.and_eq_true _ _).mpr ⟨decide_eq_true he, hsame⟩)
        · exact ih (ln + 1) hlt h2
    · rw [if_neg hc] at h2; omega

/-- Witness for claim C5: a concrete skipped line of a scan is archivable,
at the current depth or deeper, and does not match the task. -/
theorem claim_C5_witness :
    isArchiveTask ["- A", "- B"] 0 = true ∧ 0 ≤ indentLevel ["- A", "- B"] 0 ∧
      ¬(indentLevel ["- A", "- B"] 0 = 0 ∧
        isSameTask (getLine ["- A", "- B"] 0) "- [ ] T" = true) :=
  claim_C5_insert_at_end_of_run.1 ["- A", "- B"] 2 0 0 "- [ ] T" 0 (by decide) (by decide)

/-- Claim C6: the ancestor chain a `getTask` resolution returns is ordered
outermost to innermost with strictly increasing indentation — the parent
indents form the consecutive range ending just below the task's depth, of
length at most that depth (a truncated prefix when resolution stopped
early), and resolution never fails on a task line. -/
theorem claim_C6_ancestor_chain (doc : List String) (n : Nat) (t : Task)
    (h : getTask doc n = some t) :
    t.parents.map lineIndent
      = List.range' (indentLevel doc n - t.parents.length) t.parents.length ∧
    t.parents.length ≤ indentLevel doc n ∧
    List.Chain' (fun a b => a < b) (t.parents.map lineIndent) := by
  have hbt := isBulletTask_of_getTask doc n t h
  rw [getTask_eq_some_of_isBulletTask doc n hbt] at h
  have ht := (Option.some.inj h).symm
  subst ht
  obtain ⟨h1, h2⟩ := findParents_indents doc (indentLevel doc n) n (indentLevel doc n)
  have hmap : (Task.make (findParents doc (indentLevel doc n) n (indentLevel doc n))
        (getLine doc n) []).parents.map lineIndent
      = (findParents doc (indentLevel doc n) n (indentLevel doc n)).map lineIndent := by
    show ((findParents doc (indentLevel doc n) n (indentLevel doc n)).map
        (bulletTaskRewrite "-")).map lineIndent = _
    rw [List.map_map]
    exact List.map_congr_left (fun a _ => lineIndent_bulletTaskRewrite a)
  have hlen : (Task.make (findParents doc (indentLevel doc n) n (indentLevel doc n))
        (getLine doc n) []).parents.length
      = (findParents doc (indentLevel doc n) n (indentLevel doc n)).length := by
    show ((findParents doc (indentLevel doc n) n (indentLevel doc n)).map
        (bulletTaskRewrite "-")).length = _
    rw [List.length_map]
  refine ⟨?_, ?_, ?_⟩
  · rw [hmap, hlen, h1]
  · rw [hlen]; exact h2
  · rw [hmap, h1]
    exact (List.pairwise_lt_range' _ _ 1).chain'

/-- Witness for claim C6 on a three-level outline. -/
theorem claim_C6_witness :
    (Task.mk ["- A", "\t- B"] "\t\t- [ ] C" []).parents.map lineIndent
      = List.range'
          (indentLevel ["- [ ] A", "\t- [ ] B", "\t\t- [ ] C"] 2
            - (Task.mk ["- A", "\t- B"] "\t\t- [ ] C" []).parents.length)
          (Task.mk ["- A", "\t- B"] "\t\t- [ ] C" []).parents.length ∧
    (Task.mk ["- A", "\t- B"] "\t\t- [ ] C" []).parents.length
      ≤ indentLevel ["- [ ] A", "\t- [ ] B", "\t\t- [ ] C"] 2 ∧
    List.Chain' (fun a b => a < b)
      ((Task.mk ["- A", "\t- B"] "\t\t- [ ] C" []).parents.map lineIndent) :=
  claim_C6_ancestor_chain ["- [ ] A", "\t- [ ] B", "\t\t- [ ] C"] 2
    ⟨["- A", "\t- B"], "\t\t- [ ] C", []⟩ (by decide)

/-- Claim C10: the history-section search starts just below the task line
and scans only downward, so when every `# History` line sits at or before
the task line the invocation creates a fresh section: it appends a new
`# History` heading, today's subsection and the rendered task at the end of
the document — leaving two `# History` headings, as the concrete run
shows. -/
theorem claim_C10_history_search_downward :
    (∀ (doc : List String) (p : EditorPosition) (b : Bool) (today : String) (t0 : Task),
      getTask doc p.line = some t0 →
      (∀ i, i < doc.length → getLine doc i = "# History" → i ≤ p.line) →
      findLineFrom doc (p.line + 1) "# History" = none ∧
      archiveTask doc p b today
        = ⟨applyChanges doc
            ([appendToEnd doc "# History",
              appendAfterLine doc doc.length ("## " ++ today),
              appendAfterLine doc doc.length
                ((if b then t0.markAsCompleted else t0.markAsInProgress).render 0)] ++
              (if b then [deleteLine doc p.line none] else [])), p, 1⟩) ∧
    archiveTask ["# History", "- [ ] T"] ⟨1, 0⟩ true "2026-10-12"
      = ⟨["# History", "# History", "## 2026-10-12", "- [x] T"], ⟨1, 0⟩, 1⟩ := by
  refine ⟨?_, by decide⟩
  intro doc p b today t0 hg hh
  have hbt := isBulletTask_of_getTask doc p.line t0 hg
  have hnone : findLineFrom doc (p.line + 1) "# History" = none := by
    apply findLineFrom_none
    intro i hle hlt heq
    have := hh i hlt heq
    omega
  refine ⟨hnone, ?_⟩
  have h2 : findLineFrom doc (doc.length + 1) ("## " ++ today) = none := by
    rw [findLineFrom, List.drop_eq_nil_of_le (by omega)]
    rfl
  rw [archiveTask, if_pos hbt, hg]
  show ArchiveResult.mk (applyChanges doc (archivePlan doc p.line t0 b today)) p 1 = _
  rw [archivePlan, hnone, h2]
  rfl

/-- Witness for claim C10: on a document whose only `# History` heading is
above the task line, the invocation plans a fresh section at the end. -/
theorem claim_C10_witness :
    findLineFrom ["# History", "- [ ] T"] 2 "# History" = none ∧
    archiveTask ["# History", "- [ ] T"] ⟨1, 0⟩ true "2026-10-12"
      = ⟨applyChanges ["# History", "- [ ] T"]
          ([appendToEnd ["# History", "- [ ] T"] "# History",
            appendAfterLine ["# History", "- [ ] T"] 2 ("## " ++ "2026-10-12"),
            appendAfterLine ["# History", "- [ ] T"] 2
              ((Task.make [] "- [ ] T" []).markAsCompleted.render 0)] ++
            [deleteLine ["# History", "- [ ] T"] 1 none]), ⟨1, 0⟩, 1⟩ :=
  claim_C10_history_search_downward.1 ["# History", "- [ ] T"] ⟨1, 0⟩ true "2026-10-12"
    (Task.make [] "- [ ] T" []) (by decide) (by decide)

end ObsidianBrain
